import Mathlib

/-!
# Verification of the xenium hazard-eras reclamation scheme

A shallow embedding of src/xenium/reclamation/hazard_eras.hpp.  The header in
the repository contains the declarative surface (types, allocation strategy,
guard interface, the bookkeeping base of reclaimable objects); the bodies of
the guard operations and of the retirement scan live in the implementation
file impl/hazard_eras.hpp, which is not part of the sources.  Those operations
are therefore modelled from the specification, faithful to its words, and the
development proves the stated contracts about the models.

Two layers:
* a single-thread functional model of the guard operations (acquire,
  acquire_if_equal, reset, reclaim, copy/move) together with the allocation
  strategy, used for the local contracts;
* a multi-thread interleaving operational model (a step relation over a
  system state with an era clock, registered thread control blocks, hazard
  slots and per-thread retire lists), used for the global safety properties
  of the retirement scan.
-/

namespace HazardEras

/-- Error raised by the static allocation strategy when all K hazard-era
slots of the calling thread are already in use
(class bad_hazard_era_alloc, hazard_eras.hpp lines 24-26). -/
inductive HEError where
  | bad_hazard_era_alloc
deriving DecidableEq, Repr

/-- A hazard-era slot of a thread control block: an in-use flag and the
published era; a published value of none stands for the sentinel
("no era published"). -/
structure Slot where
  inUse : Bool
  published : Option Nat
deriving DecidableEq, Repr

/-- A slot that is not in use and publishes the sentinel. -/
def Slot.free : Slot := { inUse := false, published := none }

/-- The state of one guard_ptr: the held marked pointer (an object id, none
standing for null) and the index of the hazard-era slot it owns, if any. -/
structure guard_ptr where
  ptr : Option Nat
  he : Option Nat
deriving DecidableEq, Repr

/-- An empty guard: holds null and owns no slot. -/
def guard_ptr.null : guard_ptr := { ptr := none, he := none }

/-- The reclamation bookkeeping of one reclaimable object
(detail::deletable_object_with_eras): its retirement era (none before
retirement) and the deleter supplied at reclaim time (none before
retirement); deleters are identified by a numeric token. -/
structure GObj where
  retirementEra : Option Nat
  deleter : Option Nat
deriving DecidableEq, Repr

/-- The thread-local state the guard operations act on: the era clock value,
the hazard-era slots of the calling thread's control block, the guard being
operated on, the thread's retire list (object ids, most recent first), the
object bookkeeping map and a counter of retirement scans triggered so far. -/
structure TState where
  clock : Nat
  slots : List Slot
  guard : guard_ptr
  retireList : List Nat
  objs : Nat → Option GObj
  scans : Nat

/-- Index of the first slot that is not in use, if any. -/
def find_free_slot : List Slot → Option Nat
  | [] => none
  | sl :: rest => if sl.inUse then (find_free_slot rest).map (· + 1) else some 0

/-- Modelled from the spec: slot allocation in a (static) thread control
block, section 4.2 — find an unused slot and hand out its index; with the
static strategy a thread whose K slots are all in use fails with
bad_hazard_era_alloc.  The body of
detail::static_he_thread_control_block is not in the sources. -/
def alloc_hazard_era (slots : List Slot) : Except HEError Nat :=
  match find_free_slot slots with
  | some i => Except.ok i
  | none => Except.error HEError.bad_hazard_era_alloc

/-- Modelled from the spec: guard_ptr::reset, section 4.4 — release the
guard's slot (publish the sentinel, mark unused) and clear the held
pointer.  The body of guard_ptr::reset is not in the sources. -/
def reset (s : TState) : TState :=
  match s.guard.he with
  | some i => { s with slots := s.slots.set i Slot.free, guard := guard_ptr.null }
  | none => { s with guard := guard_ptr.null }

/-- Modelled from the spec: era clock advance(), section 4.1 — atomically
increment the global counter and return the new value.  The definition of
the increment on the era_clock member is not in the sources. -/
def advance (s : TState) : Nat × TState :=
  (s.clock + 1, { s with clock := s.clock + 1 })

/-- Modelled from the spec: guard_ptr::acquire, section 4.4, in the
sequential model (the publish-then-confirm retry loop of the concurrent
implementation collapses, the read of the source being the moment of
check).  Releases any previously owned slot, then: a null source leaves
the guard holding null; a non-null source allocates a slot, publishes the
current era in it, and the guard holds the snapshot.  The body of
guard_ptr::acquire is not in the sources. -/
def acquire (s : TState) (src : Option Nat) : Except HEError Unit × TState :=
  let s0 := reset s
  match src with
  | none => (Except.ok (), s0)
  | some o =>
    match alloc_hazard_era s0.slots with
    | Except.error e => (Except.error e, s)
    | Except.ok i =>
      (Except.ok (),
       { s0 with
           slots := s0.slots.set i { inUse := true, published := some s0.clock },
           guard := { ptr := some o, he := some i } })

/-- Modelled from the spec: guard_ptr::acquire_if_equal, section 4.4 — if
the live value at the source differs from the expected one at the moment of
check, return failure with the guard left empty and no slot left published;
otherwise behave exactly as acquire.  The body of
guard_ptr::acquire_if_equal is not in the sources. -/
def acquire_if_equal (s : TState) (src expected : Option Nat) :
    Except HEError Bool × TState :=
  if src = expected then
    ((acquire s src).1.map (fun _ => true), (acquire s src).2)
  else (Except.ok false, reset s)

/-- The retirement-scan threshold of the allocation strategy, from the
sources (hazard_eras.hpp lines 39-41): A * number_of_active_hazard_eras() + B. -/
def retired_nodes_threshold (A B number_of_active_hazard_eras : Nat) : Nat :=
  A * number_of_active_hazard_eras + B

/-- Modelled from the spec: guard_ptr::reclaim, section 4.4 — with the guard
holding a non-null pointer: set the object's retirement era to the value
returned by advancing the era clock, record the supplied deleter, append
the object to the calling thread's retire list, clear the guard as reset
does, and trigger a retirement scan exactly when the retire-list size now
exceeds the threshold of the allocation strategy.  The body of
guard_ptr::reclaim is not in the sources. -/
def reclaim (A B n : Nat) (s : TState) (d : Nat) : TState :=
  match s.guard.ptr with
  | none => s
  | some o =>
    let era := (advance s).1
    let s1 := (advance s).2
    let s2 := { s1 with
      objs := fun x =>
        if x = o then
          (s1.objs x).map (fun g => { g with retirementEra := some era, deleter := some d })
        else s1.objs x }
    let s3 := { reset s2 with retireList := o :: s2.retireList }
    if s3.retireList.length > retired_nodes_threshold A B n
    then { s3 with scans := s3.scans + 1 }
    else s3

/-- Modelled from the spec: the guard_ptr copy constructor, section 4.4 — a
copy of a guard holding an object acquires a second slot and re-publishes
the same era and pointer in it, leaving the original protection in place. -/
def copy_guard (s : TState) : Except HEError (guard_ptr × TState) :=
  match s.guard.ptr, s.guard.he with
  | some o, some i =>
    match alloc_hazard_era s.slots with
    | Except.error e => Except.error e
    | Except.ok j =>
      let rep : Slot := { inUse := true, published := (s.slots.getD i Slot.free).published }
      Except.ok
        ({ ptr := some o, he := some j }, { s with slots := s.slots.set j rep })
  | _, _ => Except.ok (guard_ptr.null, s)

/-- Modelled from the spec: the guard_ptr move constructor, section 4.4 —
the moved-to guard takes over the pointer and the slot without touching the
published slots; the moved-from guard becomes empty with no slot held. -/
def move_guard (s : TState) : guard_ptr × TState :=
  (s.guard, { s with guard := guard_ptr.null })

/-- One published hazard-era slot entry of the operational model: the era
published in the slot and the object the owning guard protects. -/
structure GuardSlot where
  era : Nat
  obj : Nat
deriving DecidableEq, Repr

/-- Modelled from the spec: a thread control block (section 4.2) — the
thread's hazard-era slots (none meaning the slot is unused and publishes
the sentinel) and the thread's retire list.  The bodies of the thread
control block variants are not in the sources. -/
structure ThreadState where
  slots : List (Option GuardSlot)
  retireList : List Nat
deriving DecidableEq, Repr

/-- A freshly registered thread control block with K unused slots. -/
def ThreadState.init (K : Nat) : ThreadState :=
  { slots := List.replicate K none, retireList := [] }

/-- Bookkeeping of one reclaimable object in the operational model
(detail::deletable_object_with_eras, hazard_eras.hpp lines 187-201):
construction era, retirement era (none before retirement) and how many
times its deletion operation delete_self has been invoked. -/
structure ObjInfo where
  constructionEra : Nat
  retirementEra : Option Nat
  deleteCount : Nat
deriving DecidableEq, Repr

/-- The global state of the operational model: the era clock, the number of
registered thread control blocks, their states (indices at or above
numThreads are not yet registered) and the map of reclaimable objects. -/
structure SysState where
  clock : Nat
  numThreads : Nat
  threads : Nat → ThreadState
  objs : Nat → Option ObjInfo

/-- Minimum of a list of naturals, none for the empty list. -/
def minNat? : List Nat → Option Nat
  | [] => none
  | x :: xs =>
    match minNat? xs with
    | none => some x
    | some m => some (if x ≤ m then x else m)

/-- All eras currently published across the slots of the registered thread
control blocks; unpublished slots contribute nothing. -/
def SysState.publishedEras (s : SysState) : List Nat :=
  (List.range s.numThreads).flatMap fun t =>
    ((s.threads t).slots.filterMap id).map GuardSlot.era

/-- Modelled from the spec: step 1 of the retirement scan (section 4.5) —
the minimum era published across the Global Thread Registry, unpublished
slots imposing no constraint; none when nothing is published at all.  The
scan body is not in the sources. -/
def min_active_era (s : SysState) : Option Nat := minNat? s.publishedEras

/-- Modelled from the spec: the reclaimability test of the retirement scan
(section 4.5) — an object with the given retirement era is reclaimable iff
min_active_era is at least the retirement era, an absent minimum meaning
no constraint. -/
def canReclaim (minEra : Option Nat) (retirementEra : Nat) : Bool :=
  match minEra with
  | none => true
  | some m => retirementEra ≤ m

/-- Whether the retirement scan classifies object o as reclaimable in
state s; objects that were never retired are never reclaimable. -/
def reclaimableInScan (s : SysState) (o : Nat) : Bool :=
  match s.objs o with
  | some info =>
    match info.retirementEra with
    | some r => canReclaim (min_active_era s) r
    | none => false
  | none => false

/-- Modelled from the spec: the retirement scan of thread t (section 4.5) —
partition the thread's retire list by reclaimability, unlink the
reclaimable objects and invoke their deletion operation (recorded by
incrementing deleteCount once per unlinked occurrence), keep the rest for
the next scan.  The scan body is not in the sources. -/
def scanStep (s : SysState) (t : Nat) : SysState :=
  let parts := (s.threads t).retireList.partition fun o => reclaimableInScan s o
  { s with
    threads := Function.update s.threads t { s.threads t with retireList := parts.2 },
    objs := fun o => (s.objs o).map fun info =>
      { info with deleteCount := info.deleteCount + parts.1.count o } }

/-- Modelled from the spec: the interleaving semantics of the scheme
(sections 4.1-4.5) under sequentially consistent memory.  A step is one of:
registration of a new thread control block, creation of a reclaimable
object (recording the current era as its construction era), an acquire
that publishes the current era in a free slot of the calling thread and
succeeds only while the object is unretired (the publish-then-confirm
protocol re-reads the source after publishing, so a successful acquire
observed the object before its retirement), a guard reset, a retirement
(advance the era clock, stamp the new value as the retirement era, push
the object on the calling thread's retire list), or a retirement scan. -/
inductive Step : SysState → SysState → Prop where
  | register (s : SysState) :
      Step s { s with numThreads := s.numThreads + 1 }
  | newObject (s : SysState) (o : Nat) (hfresh : s.objs o = none) :
      Step s { s with objs :=
        Function.update s.objs o (some { constructionEra := s.clock, retirementEra := none, deleteCount := 0 }) }
  | acquire (s : SysState) (t i o : Nat) (info : ObjInfo)
      (ht : t < s.numThreads)
      (hslot : (s.threads t).slots[i]? = some none)
      (hobj : s.objs o = some info)
      (hlive : info.retirementEra = none) :
      Step s { s with threads := Function.update s.threads t {
        s.threads t with slots := (s.threads t).slots.set i (some { era := s.clock, obj := o }) } }
  | reset (s : SysState) (t i : Nat) (ht : t < s.numThreads) :
      Step s { s with threads := Function.update s.threads t {
        s.threads t with slots := (s.threads t).slots.set i none } }
  | retire (s : SysState) (t o : Nat) (info : ObjInfo)
      (ht : t < s.numThreads)
      (hobj : s.objs o = some info)
      (hlive : info.retirementEra = none) :
      Step s { s with
        clock := s.clock + 1,
        objs := Function.update s.objs o (some { info with retirementEra := some (s.clock + 1) }),
        threads := Function.update s.threads t
          { s.threads t with retireList := o :: (s.threads t).retireList } }
  | scan (s : SysState) (t : Nat) (ht : t < s.numThreads) :
      Step s (scanStep s t)

/-- The initial state: era clock at its baseline, no thread registered yet
(every control block fresh with K slots), no object created. -/
def initState (K : Nat) : SysState :=
  { clock := 0, numThreads := 0, threads := fun _ => ThreadState.init K, objs := fun _ => none }

/-- The states reachable from the initial state under the interleaving
semantics, with K hazard-era slots per thread. -/
inductive Reachable (K : Nat) : SysState → Prop where
  | init : Reachable K (initState K)
  | step {s s' : SysState} : Reachable K s → Step s s' → Reachable K s'

/-- Number of occurrences of object o across the retire lists of the first
n thread control blocks of the map th. -/
def pendingAux (n : Nat) (th : Nat → ThreadState) (o : Nat) : Nat :=
  ∑ t ∈ Finset.range n, ((th t).retireList.count o)

/-- Number of occurrences of object o across the retire lists of all
registered threads of state s. -/
def pendingCount (s : SysState) (o : Nat) : Nat :=
  pendingAux s.numThreads s.threads o

/-- The inductive invariant of the operational model. -/
structure Inv (s : SysState) : Prop where
  unregistered_idle : ∀ t, s.numThreads ≤ t →
    (∀ g, some g ∉ (s.threads t).slots) ∧ (s.threads t).retireList = []
  era_le_clock : ∀ t g, some g ∈ (s.threads t).slots → g.era ≤ s.clock
  ret_le_clock : ∀ o info r, s.objs o = some info → info.retirementEra = some r → r ≤ s.clock
  con_le_clock : ∀ o info, s.objs o = some info → info.constructionEra ≤ s.clock
  con_lt_ret : ∀ o info r, s.objs o = some info → info.retirementEra = some r →
    info.constructionEra < r
  guard_safe : ∀ t g info r, some g ∈ (s.threads t).slots → s.objs g.obj = some info →
    info.retirementEra = some r → g.era < r
  live_clean : ∀ o info, s.objs o = some info → info.retirementEra = none →
    info.deleteCount = 0 ∧ pendingCount s o = 0
  retired_once : ∀ o info, s.objs o = some info → info.retirementEra ≠ none →
    info.deleteCount + pendingCount s o = 1
  ghost_pending : ∀ o, s.objs o = none → pendingCount s o = 0

/-- Concrete run, stage 0: the initial state with one slot per thread. -/
def SW0 : SysState := initState 1

/-- Concrete run, stage 1: one thread has registered. -/
def SW1 : SysState := { SW0 with numThreads := SW0.numThreads + 1 }

/-- Concrete run, stage 2: object 0 is created at era 0. -/
def SW2 : SysState :=
  { SW1 with objs :=
      Function.update SW1.objs 0 (some { constructionEra := SW1.clock, retirementEra := none, deleteCount := 0 }) }

/-- Concrete run, stage 3: thread 0 retires object 0, stamping retirement
era 1. -/
def SW3 : SysState :=
  { SW2 with
      clock := SW2.clock + 1,
      objs := Function.update SW2.objs 0
        (some { constructionEra := 0, retirementEra := some (SW2.clock + 1), deleteCount := 0 }),
      threads := Function.update SW2.threads 0
        { SW2.threads 0 with retireList := 0 :: (SW2.threads 0).retireList } }

/-- Concrete run, stage 4: object 1 is created at era 1. -/
def SW4 : SysState :=
  { SW3 with objs :=
      Function.update SW3.objs 1 (some { constructionEra := SW3.clock, retirementEra := none, deleteCount := 0 }) }

/-- Concrete run, stage 5: thread 0 acquires a guard on object 1,
publishing era 1 in its slot 0. -/
def SW5 : SysState :=
  { SW4 with threads := Function.update SW4.threads 0 {
      SW4.threads 0 with slots := (SW4.threads 0).slots.set 0 (some { era := SW4.clock, obj := 1 }) } }

/-- A concrete thread-local state for the guard-operation contracts: era
clock at 5, two slots of which slot 0 is held by the guard protecting
object 7, an empty retire list and object 7 unretired. -/
def TW : TState :=
  { clock := 5,
    slots := [{ inUse := true, published := some 3 }, Slot.free],
    guard := { ptr := some 7, he := some 0 },
    retireList := [],
    objs := fun x => if x = 7 then some { retirementEra := none, deleter := none } else none,
    scans := 0 }

/-- A concrete thread-local state whose single slot is in use while the
guard under consideration is still empty: the capacity-exhaustion
situation of the static strategy with K = 1. -/
def TWfull : TState :=
  { clock := 2,
    slots := [{ inUse := true, published := some 1 }],
    guard := guard_ptr.null,
    retireList := [],
    objs := fun _ => none,
    scans := 0 }

/-- Width in bits of hazard_eras::era_t, which the sources declare as
uint64_t (hazard_eras.hpp line 114); the era clock counts in this type. -/
def hazard_eras_era_bits : Nat := 64

/-- The era fields of detail::deletable_object_with_eras are declared with
era_t = size_t (hazard_eras.hpp line 193), whose width is
platform-dependent; the constructor of enable_concurrent_ptr assigns the
uint64_t era clock value to the size_t construction_era field
(hazard_eras.hpp line 132), which keeps the value modulo 2 ^ width. -/
def store_construction_era (size_t_bits : Nat) (clockValue : Nat) : Nat :=
  clockValue % 2 ^ size_t_bits

theorem find_free_slot_eq_none (l : List Slot) (h : ∀ sl ∈ l, sl.inUse = true) :
    find_free_slot l = none := by
  induction l with
  | nil => rfl
  | cons sl rest ih =>
    have h1 := h sl (List.mem_cons_self sl rest)
    simp [find_free_slot, h1, ih fun x hx => h x (List.mem_cons_of_mem _ hx)]

theorem find_free_slot_spec (l : List Slot) (j : Nat) (h : find_free_slot l = some j) :
    ∃ sl, l[j]? = some sl ∧ sl.inUse = false := by
  induction l generalizing j with
  | nil => simp [find_free_slot] at h
  | cons sl rest ih =>
    by_cases hu : sl.inUse
    · simp only [find_free_slot, hu, if_pos] at h
      obtain ⟨j', hj', rfl⟩ := Option.map_eq_some'.mp h
      obtain ⟨sl', hsl', hfree⟩ := ih j' hj'
      exact ⟨sl', by simpa using hsl', hfree⟩
    · simp [find_free_slot, hu] at h
      subst h
      exact ⟨sl, by simp, by simpa using hu⟩

theorem reset_of_guard_null (s : TState) (h : s.guard = guard_ptr.null) : reset s = s := by
  have hhe : s.guard.he = none := by rw [h]; rfl
  simp [reset, hhe, ← h]

/-- C4: with the static allocation strategy with parameter K, a thread that
already holds K concurrently in-use hazard-era slots and attempts to
acquire a further concurrent guard fails with bad_hazard_era_alloc; the
error is returned synchronously by that acquire call and the state is left
unchanged, so the failure is fatal only to that call. -/
theorem static_strategy_capacity_error (K : Nat) (s : TState) (o : Nat)
    (hguard : s.guard = guard_ptr.null)
    (_hlen : s.slots.length = K)
    (hfull : ∀ sl ∈ s.slots, sl.inUse = true) :
    acquire s (some o) = (Except.error HEError.bad_hazard_era_alloc, s) := by
  have hr : reset s = s := reset_of_guard_null s hguard
  simp [acquire, hr, alloc_hazard_era, find_free_slot_eq_none s.slots hfull]

/-- C4 witness: with K = 1 and the single slot in use, acquiring fails with
bad_hazard_era_alloc and the thread state is unchanged. -/
theorem static_strategy_capacity_error_witness :
    acquire TWfull (some 5) = (Except.error HEError.bad_hazard_era_alloc, TWfull) :=
  static_strategy_capacity_error 1 TWfull 5 (by decide) (by decide) (by decide)

/-- C5: for a guard holding a non-null pointer, reclaim sets the object's
retirement era to the value returned by advancing the era clock, records
the supplied deleter, appends the object to the calling thread's retire
list, clears the guard with the same postcondition as reset (on both the
guard and the slots), and triggers a retirement scan exactly when the
retire-list size now exceeds retired_nodes_threshold(). -/
theorem reclaim_spec (A B n : Nat) (s : TState) (o d : Nat) (g : GObj)
    (hptr : s.guard.ptr = some o) (hobj : s.objs o = some g) :
    (reclaim A B n s d).objs o = some { retirementEra := some (advance s).1, deleter := some d }
    ∧ (reclaim A B n s d).clock = (advance s).1
    ∧ (reclaim A B n s d).retireList = o :: s.retireList
    ∧ (reclaim A B n s d).guard = (reset s).guard
    ∧ (reclaim A B n s d).slots = (reset s).slots
    ∧ (reclaim A B n s d).scans =
        (if (o :: s.retireList).length > retired_nodes_threshold A B n
         then s.scans + 1 else s.scans) := by
  simp only [reclaim]
  rw [hptr]
  simp only [advance]
  cases hhe : s.guard.he with
  | none => split <;> simp_all [reset, hhe, hobj]
  | some k => split <;> simp_all [reset, hhe, hobj]

/-- C5 witness: reclaiming object 7 in the concrete thread state stamps
retirement era 6, records deleter 9, pushes 7 on the retire list, clears
the guard and triggers a scan (threshold 0 exceeded). -/
theorem reclaim_spec_witness :
    (reclaim 1 0 0 TW 9).objs 7 = some { retirementEra := some (advance TW).1, deleter := some 9 }
    ∧ (reclaim 1 0 0 TW 9).clock = (advance TW).1
    ∧ (reclaim 1 0 0 TW 9).retireList = 7 :: TW.retireList
    ∧ (reclaim 1 0 0 TW 9).guard = (reset TW).guard
    ∧ (reclaim 1 0 0 TW 9).slots = (reset TW).slots
    ∧ (reclaim 1 0 0 TW 9).scans =
        (if (7 :: TW.retireList).length > retired_nodes_threshold 1 0 0
         then TW.scans + 1 else TW.scans) :=
  reclaim_spec 1 0 0 TW 7 9 { retirementEra := none, deleter := none } (by decide) (by decide)

/-- C6: for every choice of the allocation-strategy parameters A and B,
retired_nodes_threshold() returns exactly A * number_of_active_hazard_eras() + B,
and reclaim triggers a retirement scan exactly when the calling thread's
pending-retirement count exceeds this value. -/
theorem retired_nodes_threshold_spec (A B n : Nat) (s : TState) (o d : Nat)
    (hptr : s.guard.ptr = some o) :
    retired_nodes_threshold A B n = A * n + B
    ∧ ((reclaim A B n s d).scans > s.scans ↔ s.retireList.length + 1 > A * n + B) := by
  refine ⟨rfl, ?_⟩
  simp only [reclaim]
  rw [hptr]
  simp only [advance]
  cases hhe : s.guard.he with
  | none => split <;> simp_all [reset, hhe, retired_nodes_threshold]
  | some k => split <;> simp_all [reset, hhe, retired_nodes_threshold]

/-- C6 witness: with A = 1, B = 0 and no active hazard eras, the threshold
is 0 and reclaiming into an empty retire list (new size 1) triggers a scan. -/
theorem retired_nodes_threshold_spec_witness :
    retired_nodes_threshold 1 0 0 = 1 * 0 + 0
    ∧ ((reclaim 1 0 0 TW 9).scans > TW.scans ↔ TW.retireList.length + 1 > 1 * 0 + 0) :=
  retired_nodes_threshold_spec 1 0 0 TW 7 9 (by decide)

/-- C7: acquire_if_equal returns failure and leaves the guard empty with no
slot published when the live value at the source differs from the expected
one at the moment of check (every in-use slot of the resulting state was
already there before the call); when the live value matches, its behaviour
is identical to acquire, down to the resulting state. -/
theorem acquire_if_equal_spec (s : TState) (src expected : Option Nat) :
    (src ≠ expected →
        acquire_if_equal s src expected = (Except.ok false, reset s)
        ∧ (acquire_if_equal s src expected).2.guard = guard_ptr.null
        ∧ (∀ (i : Nat) (sl : Slot), (acquire_if_equal s src expected).2.slots[i]? = some sl →
              sl.inUse = true → s.slots[i]? = some sl))
    ∧ (src = expected →
        acquire_if_equal s src expected
          = ((acquire s src).1.map (fun _ => true), (acquire s src).2)) := by
  constructor
  · intro hne
    have heq : acquire_if_equal s src expected = (Except.ok false, reset s) := by
      simp [acquire_if_equal, hne]
    refine ⟨heq, ?_, ?_⟩
    · rw [heq]
      cases hhe : s.guard.he <;> simp [reset, hhe]
    · intro i sl hsl hin
      rw [heq] at hsl
      cases hhe : s.guard.he with
      | none => simpa [reset, hhe] using hsl
      | some k =>
        simp only [reset, hhe] at hsl
        by_cases hik : k = i
        · subst hik
          rcases Nat.lt_or_ge k s.slots.length with hlt | hge
          · rw [List.getElem?_set_self hlt] at hsl
            injection hsl with hsl
            rw [← hsl] at hin
            simp [Slot.free] at hin
          · rw [List.getElem?_eq_none_iff.mpr (by simpa using hge)] at hsl
            cases hsl
        · rwa [List.getElem?_set_ne hik] at hsl
  · intro heqv
    simp [acquire_if_equal, heqv]

/-- C7 witness: in the concrete thread state, a mismatching expected value
yields failure with an empty guard, and a matching one reproduces acquire. -/
theorem acquire_if_equal_spec_witness :
    ((some 7 : Option Nat) ≠ (some 8 : Option Nat) →
        acquire_if_equal TW (some 7) (some 8) = (Except.ok false, reset TW)
        ∧ (acquire_if_equal TW (some 7) (some 8)).2.guard = guard_ptr.null
        ∧ (∀ (i : Nat) (sl : Slot), (acquire_if_equal TW (some 7) (some 8)).2.slots[i]? = some sl →
              sl.inUse = true → TW.slots[i]? = some sl))
    ∧ ((some 7 : Option Nat) = (some 8 : Option Nat) →
        acquire_if_equal TW (some 7) (some 8)
          = ((acquire TW (some 7)).1.map (fun _ => true), (acquire TW (some 7)).2)) :=
  acquire_if_equal_spec TW (some 7) (some 8)

/-- C8: reset releases the guard's hazard-era slot (marking it unused and
publishing the sentinel), clears the held pointer so that the guard holds
null afterwards, and touches nothing else — in particular it never invokes
any user deletion logic (objects, retire list, scan count and clock are
unchanged). -/
theorem reset_spec (s : TState) (i : Nat) :
    (reset s).guard = guard_ptr.null
    ∧ (s.guard.he = some i → i < s.slots.length → (reset s).slots[i]? = some Slot.free)
    ∧ (reset s).objs = s.objs
    ∧ (reset s).retireList = s.retireList
    ∧ (reset s).scans = s.scans
    ∧ (reset s).clock = s.clock := by
  refine ⟨?_, ?_, ?_, ?_, ?_, ?_⟩
  case refine_2 =>
    intro hk hlen
    simp only [reset, hk]
    simp [List.getElem?_set_self hlen]
  all_goals cases hhe : s.guard.he <;> simp [reset, hhe]

/-- C8 witness: resetting the concrete guard holding slot 0 frees that slot,
publishes the sentinel there and leaves everything else unchanged. -/
theorem reset_spec_witness :
    (reset TW).guard = guard_ptr.null
    ∧ (TW.guard.he = some 0 → 0 < TW.slots.length → (reset TW).slots[0]? = some Slot.free)
    ∧ (reset TW).objs = TW.objs
    ∧ (reset TW).retireList = TW.retireList
    ∧ (reset TW).scans = TW.scans
    ∧ (reset TW).clock = TW.clock :=
  reset_spec TW 0

/-- C9: copying a guard that holds an object acquires a second, distinct
hazard-era slot and re-publishes the same era and the same pointer there
while the original slot stays published; moving a guard transfers the
pointer and the slot without touching the published slots, and the
moved-from guard holds null and owns no slot. -/
theorem guard_copy_move_spec (s : TState) (o i e j : Nat)
    (hg : s.guard = { ptr := some o, he := some i })
    (hslot : s.slots[i]? = some { inUse := true, published := some e })
    (halloc : alloc_hazard_era s.slots = Except.ok j) :
    (copy_guard s = Except.ok
        ({ ptr := some o, he := some j },
         { s with slots := s.slots.set j ({ inUse := true, published := some e }) })
     ∧ j ≠ i
     ∧ (s.slots.set j ({ inUse := true, published := some e }))[j]?
         = some ({ inUse := true, published := some e })
     ∧ (s.slots.set j ({ inUse := true, published := some e }))[i]?
         = some ({ inUse := true, published := some e }))
    ∧ ((move_guard s).1 = { ptr := some o, he := some i }
       ∧ (move_guard s).2.slots = s.slots
       ∧ (move_guard s).2.guard = guard_ptr.null) := by
  have hfind : find_free_slot s.slots = some j := by
    cases hf : find_free_slot s.slots with
    | none => simp [alloc_hazard_era, hf] at halloc
    | some j' =>
      simp [alloc_hazard_era, hf] at halloc
      rw [halloc]
  obtain ⟨slj, hslj, hfree⟩ := find_free_slot_spec s.slots j hfind
  have hji : j ≠ i := by
    intro h
    rw [h, hslot] at hslj
    injection hslj with hslj
    rw [← hslj] at hfree
    simp at hfree
  obtain ⟨hjlt, -⟩ := List.getElem?_eq_some_iff.mp hslj
  have hptr : s.guard.ptr = some o := by rw [hg]
  have hhe : s.guard.he = some i := by rw [hg]
  refine ⟨⟨?_, hji, List.getElem?_set_self hjlt, by rw [List.getElem?_set_ne hji]; exact hslot⟩,
    by rw [move_guard, hg], by rw [move_guard], by rw [move_guard]⟩
  simp only [copy_guard, hptr, hhe, halloc]
  rw [List.getD_eq_getElem?_getD, hslot]
  rfl

/-- C9 witness: in the concrete thread state the guard on object 7 holds
slot 0 publishing era 3; copying it takes the free slot 1 and re-publishes
era 3 and object 7 there, while moving transfers slot 0 and empties the
source guard. -/
theorem guard_copy_move_spec_witness :
    (copy_guard TW = Except.ok
        ({ ptr := some 7, he := some 1 },
         { TW with slots := TW.slots.set 1 ({ inUse := true, published := some 3 }) })
     ∧ (1 : Nat) ≠ 0
     ∧ (TW.slots.set 1 ({ inUse := true, published := some 3 }))[1]?
         = some ({ inUse := true, published := some 3 })
     ∧ (TW.slots.set 1 ({ inUse := true, published := some 3 }))[0]?
         = some ({ inUse := true, published := some 3 }))
    ∧ ((move_guard TW).1 = { ptr := some 7, he := some 0 }
       ∧ (move_guard TW).2.slots = TW.slots
       ∧ (move_guard TW).2.guard = guard_ptr.null) := by
  exact guard_copy_move_spec TW 7 0 3 1 (by decide) (by decide) (by rfl)

/-- C10: the era clock of hazard_eras counts in a 64-bit type (era_t =
uint64_t), but the construction_era and retirement_era fields of
deletable_object_with_eras are declared with era_t = size_t; on a platform
where size_t is 32 bits wide, storing the era-clock value 2^32 into
construction_era keeps only 0, so the stored era does not equal the clock
value — the assignment narrows.  On a 64-bit size_t no truncation occurs. -/
theorem construction_era_narrows_on_32bit_size_t :
    store_construction_era 32 (2 ^ 32) = 0
    ∧ store_construction_era 32 (2 ^ 32) ≠ 2 ^ 32
    ∧ store_construction_era 64 (2 ^ 32) = 2 ^ 32
    ∧ hazard_eras_era_bits = 64 := by
  refine ⟨?_, ?_, ?_, rfl⟩ <;> decide

theorem minNat?_eq_none {l : List Nat} (h : minNat? l = none) : l = [] := by
  cases l with
  | nil => rfl
  | cons a as => cases has : minNat? as <;> simp [minNat?, has] at h

theorem minNat?_le_of_mem {l : List Nat} {x m : Nat} (hx : x ∈ l) (hm : minNat? l = some m) :
    m ≤ x := by
  induction l generalizing m with
  | nil => cases hx
  | cons a as ih =>
    cases has : minNat? as with
    | none =>
      have hnil : as = [] := minNat?_eq_none has
      subst hnil
      simp [minNat?] at hm
      simp at hx
      omega
    | some m' =>
      simp only [minNat?, has] at hm
      injection hm with hm
      rcases List.mem_cons.mp hx with rfl | hx'
      · split at hm <;> omega
      · have hm' := ih hx' has
        split at hm <;> omega

theorem minNat?_mem {l : List Nat} {m : Nat} (h : minNat? l = some m) : m ∈ l := by
  induction l generalizing m with
  | nil => cases h
  | cons a as ih =>
    cases has : minNat? as with
    | none =>
      simp only [minNat?, has] at h
      injection h with h
      simp [← h]
    | some m' =>
      simp only [minNat?, has] at h
      injection h with h
      split at h
      · simp [← h]
      · exact List.mem_cons_of_mem a (ih (has.trans (by rw [h])))

theorem count_filter_of_false {α : Type} [DecidableEq α] {p : α → Bool} {l : List α} {a : α}
    (ha : p a = false) : (l.filter p).count a = 0 := by
  rw [List.count_eq_zero]
  intro hmem
  have hpa := (List.mem_filter.mp hmem).2
  rw [ha] at hpa
  cases hpa

theorem era_mem_publishedEras {s : SysState} {t : Nat} {g : GuardSlot}
    (ht : t < s.numThreads) (hg : some g ∈ (s.threads t).slots) :
    g.era ∈ s.publishedEras := by
  unfold SysState.publishedEras
  rw [List.mem_flatMap]
  exact ⟨t, List.mem_range.mpr ht,
    List.mem_map.mpr ⟨g, List.mem_filterMap.mpr ⟨some g, hg, rfl⟩, rfl⟩⟩

theorem pendingAux_update (n t : Nat) (th : Nat → ThreadState) (ts : ThreadState)
    (ht : t < n) (o : Nat) :
    pendingAux n (Function.update th t ts) o + ((th t).retireList.count o)
      = pendingAux n th o + ts.retireList.count o := by
  unfold pendingAux
  have hmem : t ∈ Finset.range n := Finset.mem_range.mpr ht
  have h1 : ∑ x ∈ Finset.range n, ((Function.update th t ts x).retireList.count o)
      = ts.retireList.count o
        + ∑ x ∈ (Finset.range n).erase t, ((th x).retireList.count o) := by
    rw [← Finset.add_sum_erase _ (fun x => ((Function.update th t ts x).retireList.count o)) hmem]
    congr 1
    · rw [Function.update_same]
    · refine Finset.sum_congr rfl fun x hx => ?_
      rw [Function.update_noteq (Finset.ne_of_mem_erase hx)]
  have h2 : ∑ x ∈ Finset.range n, ((th x).retireList.count o)
      = (th t).retireList.count o
        + ∑ x ∈ (Finset.range n).erase t, ((th x).retireList.count o) :=
    (Finset.add_sum_erase _ _ hmem).symm
  omega

theorem pendingAux_succ (n : Nat) (th : Nat → ThreadState) (o : Nat) :
    pendingAux (n + 1) th o = pendingAux n th o + (th n).retireList.count o := by
  unfold pendingAux
  exact Finset.sum_range_succ _ n

theorem count_le_pendingCount {s : SysState} {t o : Nat} (ht : t < s.numThreads) :
    (s.threads t).retireList.count o ≤ pendingCount s o := by
  unfold pendingCount pendingAux
  exact Finset.single_le_sum (f := fun i => (s.threads i).retireList.count o)
    (fun i _ => Nat.zero_le _) (Finset.mem_range.mpr ht)

theorem pendingCount_pos {s : SysState} {t o : Nat} (ht : t < s.numThreads)
    (ho : o ∈ (s.threads t).retireList) : 0 < pendingCount s o :=
  Nat.lt_of_lt_of_le (List.count_pos_iff.mpr ho) (count_le_pendingCount ht)

theorem inv_init (K : Nat) : Inv (initState K) := by
  constructor
  · intro t _
    constructor
    · intro g hg
      have := List.eq_of_mem_replicate hg
      cases this
    · rfl
  · intro t g hg
    have := List.eq_of_mem_replicate hg
    cases this
  · intro o info r hobj
    cases hobj
  · intro o info hobj
    cases hobj
  · intro o info r hobj
    cases hobj
  · intro t g info r _ hobj
    cases hobj
  · intro o info hobj
    cases hobj
  · intro o info hobj
    cases hobj
  · intro o _
    rfl

theorem inv_register {s : SysState} (hs : Inv s) :
    Inv { s with numThreads := s.numThreads + 1 } := by
  have hpend : ∀ o, pendingCount { s with numThreads := s.numThreads + 1 } o = pendingCount s o := by
    intro o
    show pendingAux (s.numThreads + 1) s.threads o = pendingAux s.numThreads s.threads o
    rw [pendingAux_succ, (hs.unregistered_idle s.numThreads le_rfl).2]
    simp
  refine ⟨?_, hs.era_le_clock, hs.ret_le_clock, hs.con_le_clock, hs.con_lt_ret, hs.guard_safe,
    ?_, ?_, ?_⟩
  · intro t htt
    have htt' : s.numThreads + 1 ≤ t := htt
    exact hs.unregistered_idle t (by omega)
  · intro o info hobj hnone
    exact ⟨(hs.live_clean o info hobj hnone).1, by
      rw [hpend]
      exact (hs.live_clean o info hobj hnone).2⟩
  · intro o info hobj hne
    rw [hpend]
    exact hs.retired_once o info hobj hne
  · intro o hobj
    rw [hpend]
    exact hs.ghost_pending o hobj

theorem inv_newObject {s : SysState} (o₀ : Nat) (hfresh : s.objs o₀ = none) (hs : Inv s) :
    Inv { s with objs := Function.update s.objs o₀ (some {
      constructionEra := s.clock, retirementEra := none, deleteCount := 0 }) } := by
  refine ⟨hs.unregistered_idle, hs.era_le_clock, ?_, ?_, ?_, ?_, ?_, ?_, ?_⟩
  · intro o info r hobj hret
    dsimp only at hobj
    by_cases ho : o = o₀
    · subst ho
      rw [Function.update_same] at hobj
      injection hobj with hobj
      rw [← hobj] at hret
      cases hret
    · rw [Function.update_noteq ho] at hobj
      exact hs.ret_le_clock o info r hobj hret
  · intro o info hobj
    dsimp only at hobj
    by_cases ho : o = o₀
    · subst ho
      rw [Function.update_same] at hobj
      injection hobj with hobj
      rw [← hobj]
    · rw [Function.update_noteq ho] at hobj
      exact hs.con_le_clock o info hobj
  · intro o info r hobj hret
    dsimp only at hobj
    by_cases ho : o = o₀
    · subst ho
      rw [Function.update_same] at hobj
      injection hobj with hobj
      rw [← hobj] at hret
      cases hret
    · rw [Function.update_noteq ho] at hobj
      exact hs.con_lt_ret o info r hobj hret
  · intro t g info r hg hobj hret
    dsimp only at hobj
    by_cases ho : g.obj = o₀
    · rw [ho, Function.update_same] at hobj
      injection hobj with hobj
      rw [← hobj] at hret
      cases hret
    · rw [Function.update_noteq ho] at hobj
      exact hs.guard_safe t g info r hg hobj hret
  · intro o info hobj hnone
    dsimp only at hobj
    by_cases ho : o = o₀
    · subst ho
      rw [Function.update_same] at hobj
      injection hobj with hobj
      rw [← hobj]
      exact ⟨rfl, hs.ghost_pending o hfresh⟩
    · rw [Function.update_noteq ho] at hobj
      exact hs.live_clean o info hobj hnone
  · intro o info hobj hne
    dsimp only at hobj
    by_cases ho : o = o₀
    · subst ho
      rw [Function.update_same] at hobj
      injection hobj with hobj
      rw [← hobj] at hne
      exact absurd rfl hne
    · rw [Function.update_noteq ho] at hobj
      exact hs.retired_once o info hobj hne
  · intro o hobj
    dsimp only at hobj
    by_cases ho : o = o₀
    · subst ho
      rw [Function.update_same] at hobj
      cases hobj
    · rw [Function.update_noteq ho] at hobj
      exact hs.ghost_pending o hobj

theorem pendingCount_eq_of_lists {s s' : SysState}
    (hn : s'.numThreads = s.numThreads)
    (hl : ∀ t, t < s.numThreads → (s'.threads t).retireList = (s.threads t).retireList)
    (o : Nat) : pendingCount s' o = pendingCount s o := by
  unfold pendingCount pendingAux
  rw [hn]
  exact Finset.sum_congr rfl fun x hx => by rw [hl x (Finset.mem_range.mp hx)]

theorem inv_acquire {s : SysState} (t i o₀ : Nat) (info₀ : ObjInfo)
    (ht : t < s.numThreads)
    (hobj₀ : s.objs o₀ = some info₀)
    (hlive : info₀.retirementEra = none) (hs : Inv s) :
    Inv { s with threads := Function.update s.threads t {
      s.threads t with slots := (s.threads t).slots.set i (some { era := s.clock, obj := o₀ }) } } := by
  have hpend : ∀ o, pendingCount { s with threads := Function.update s.threads t {
      s.threads t with slots := (s.threads t).slots.set i (some { era := s.clock, obj := o₀ }) } } o
      = pendingCount s o := by
    intro o
    refine pendingCount_eq_of_lists ?_ ?_ o
    · rfl
    · intro t' htl
      dsimp only
      by_cases htt : t' = t
      · subst htt
        rw [Function.update_same]
      · rw [Function.update_noteq htt]
  refine ⟨?_, ?_, hs.ret_le_clock, hs.con_le_clock, hs.con_lt_ret, ?_, ?_, ?_, ?_⟩
  · intro t' htt'
    dsimp only at htt' ⊢
    have hne : t' ≠ t := by omega
    rw [Function.update_noteq hne]
    exact hs.unregistered_idle t' htt'
  · intro t' g hg
    dsimp only at hg ⊢
    by_cases htt : t' = t
    · subst htt
      rw [Function.update_same] at hg
      dsimp only at hg
      rcases List.mem_or_eq_of_mem_set hg with hold | heq
      · exact hs.era_le_clock t' g hold
      · injection heq with heq
        subst heq
        exact le_rfl
    · rw [Function.update_noteq htt] at hg
      exact hs.era_le_clock t' g hg
  · intro t' g info r hg hobj hret
    dsimp only at hg hobj
    by_cases htt : t' = t
    · subst htt
      rw [Function.update_same] at hg
      dsimp only at hg
      rcases List.mem_or_eq_of_mem_set hg with hold | heq
      · exact hs.guard_safe t' g info r hold hobj hret
      · injection heq with heq
        subst heq
        have hinfo : info = info₀ := by
          rw [hobj₀] at hobj
          injection hobj with h
          exact h.symm
        rw [hinfo, hlive] at hret
        cases hret
    · rw [Function.update_noteq htt] at hg
      exact hs.guard_safe t' g info r hg hobj hret
  · intro o info hobj hnone
    refine ⟨(hs.live_clean o info hobj hnone).1, ?_⟩
    rw [hpend o]
    exact (hs.live_clean o info hobj hnone).2
  · intro o info hobj hne
    rw [hpend o]
    exact hs.retired_once o info hobj hne
  · intro o hobj
    rw [hpend o]
    exact hs.ghost_pending o hobj

theorem inv_reset {s : SysState} (t i : Nat) (ht : t < s.numThreads) (hs : Inv s) :
    Inv { s with threads := Function.update s.threads t {
      s.threads t with slots := (s.threads t).slots.set i none } } := by
  have hpend : ∀ o, pendingCount { s with threads := Function.update s.threads t {
      s.threads t with slots := (s.threads t).slots.set i none } } o = pendingCount s o := by
    intro o
    refine pendingCount_eq_of_lists ?_ ?_ o
    · rfl
    · intro t' htl
      dsimp only
      by_cases htt : t' = t
      · subst htt
        rw [Function.update_same]
      · rw [Function.update_noteq htt]
  refine ⟨?_, ?_, hs.ret_le_clock, hs.con_le_clock, hs.con_lt_ret, ?_, ?_, ?_, ?_⟩
  · intro t' htt'
    dsimp only at htt' ⊢
    have hne : t' ≠ t := by omega
    rw [Function.update_noteq hne]
    exact hs.unregistered_idle t' htt'
  · intro t' g hg
    dsimp only at hg ⊢
    by_cases htt : t' = t
    · subst htt
      rw [Function.update_same] at hg
      dsimp only at hg
      rcases List.mem_or_eq_of_mem_set hg with hold | heq
      · exact hs.era_le_clock t' g hold
      · cases heq
    · rw [Function.update_noteq htt] at hg
      exact hs.era_le_clock t' g hg
  · intro t' g info r hg hobj hret
    dsimp only at hg hobj
    by_cases htt : t' = t
    · subst htt
      rw [Function.update_same] at hg
      dsimp only at hg
      rcases List.mem_or_eq_of_mem_set hg with hold | heq
      · exact hs.guard_safe t' g info r hold hobj hret
      · cases heq
    · rw [Function.update_noteq htt] at hg
      exact hs.guard_safe t' g info r hg hobj hret
  · intro o info hobj hnone
    refine ⟨(hs.live_clean o info hobj hnone).1, ?_⟩
    rw [hpend o]
    exact (hs.live_clean o info hobj hnone).2
  · intro o info hobj hne
    rw [hpend o]
    exact hs.retired_once o info hobj hne
  · intro o hobj
    rw [hpend o]
    exact hs.ghost_pending o hobj

theorem inv_retire {s : SysState} (t o₀ : Nat) (info₀ : ObjInfo)
    (ht : t < s.numThreads) (hobj₀ : s.objs o₀ = some info₀)
    (hlive : info₀.retirementEra = none) (hs : Inv s) :
    Inv { s with
      clock := s.clock + 1,
      objs := Function.update s.objs o₀ (some { info₀ with retirementEra := some (s.clock + 1) }),
      threads := Function.update s.threads t {
        s.threads t with retireList := o₀ :: (s.threads t).retireList } } := by
  have hpend : ∀ o, pendingCount { s with
      clock := s.clock + 1,
      objs := Function.update s.objs o₀ (some { info₀ with retirementEra := some (s.clock + 1) }),
      threads := Function.update s.threads t {
        s.threads t with retireList := o₀ :: (s.threads t).retireList } } o
      + (s.threads t).retireList.count o
      = pendingCount s o + (o₀ :: (s.threads t).retireList).count o := by
    intro o
    exact pendingAux_update s.numThreads t s.threads
      { s.threads t with retireList := o₀ :: (s.threads t).retireList } ht o
  refine ⟨?_, ?_, ?_, ?_, ?_, ?_, ?_, ?_, ?_⟩
  · intro t' htt'
    dsimp only at htt' ⊢
    have hne : t' ≠ t := by omega
    rw [Function.update_noteq hne]
    exact hs.unregistered_idle t' htt'
  · intro t' g hg
    dsimp only at hg ⊢
    have hg' : some g ∈ (s.threads t').slots := by
      by_cases htt : t' = t
      · subst htt
        rw [Function.update_same] at hg
        exact hg
      · rwa [Function.update_noteq htt] at hg
    exact Nat.le_succ_of_le (hs.era_le_clock t' g hg')
  · intro o info r hobj hret
    dsimp only at hobj ⊢
    by_cases ho : o = o₀
    · rw [ho, Function.update_same] at hobj
      injection hobj with hobj
      rw [← hobj] at hret
      dsimp only at hret
      injection hret with hret
      omega
    · rw [Function.update_noteq ho] at hobj
      exact Nat.le_succ_of_le (hs.ret_le_clock o info r hobj hret)
  · intro o info hobj
    dsimp only at hobj ⊢
    by_cases ho : o = o₀
    · rw [ho, Function.update_same] at hobj
      injection hobj with hobj
      rw [← hobj]
      dsimp only
      exact Nat.le_succ_of_le (hs.con_le_clock o₀ info₀ hobj₀)
    · rw [Function.update_noteq ho] at hobj
      exact Nat.le_succ_of_le (hs.con_le_clock o info hobj)
  · intro o info r hobj hret
    dsimp only at hobj
    by_cases ho : o = o₀
    · rw [ho, Function.update_same] at hobj
      injection hobj with hobj
      rw [← hobj] at hret ⊢
      dsimp only at hret ⊢
      injection hret with hret
      have := hs.con_le_clock o₀ info₀ hobj₀
      omega
    · rw [Function.update_noteq ho] at hobj
      exact hs.con_lt_ret o info r hobj hret
  · intro t' g info r hg hobj hret
    dsimp only at hg hobj
    have hg' : some g ∈ (s.threads t').slots := by
      by_cases htt : t' = t
      · subst htt
        rw [Function.update_same] at hg
        exact hg
      · rwa [Function.update_noteq htt] at hg
    by_cases ho : g.obj = o₀
    · rw [ho, Function.update_same] at hobj
      injection hobj with hobj
      rw [← hobj] at hret
      dsimp only at hret
      injection hret with hret
      have := hs.era_le_clock t' g hg'
      omega
    · rw [Function.update_noteq ho] at hobj
      exact hs.guard_safe t' g info r hg' hobj hret
  · intro o info hobj hnone
    dsimp only at hobj
    by_cases ho : o = o₀
    · rw [ho, Function.update_same] at hobj
      injection hobj with hobj
      rw [← hobj] at hnone
      dsimp only at hnone
      cases hnone
    · rw [Function.update_noteq ho] at hobj
      have hold := hs.live_clean o info hobj hnone
      refine ⟨hold.1, ?_⟩
      have hp := hpend o
      rw [List.count_cons_of_ne ho] at hp
      omega
  · intro o info hobj hne
    dsimp only at hobj
    by_cases ho : o = o₀
    · rw [ho] at hobj ⊢
      rw [Function.update_same] at hobj
      injection hobj with hobj
      have hold := hs.live_clean o₀ info₀ hobj₀ hlive
      have hp := hpend o₀
      rw [List.count_cons_self] at hp
      have hdc : info.deleteCount = info₀.deleteCount := by rw [← hobj]
      omega
    · rw [Function.update_noteq ho] at hobj
      have hold := hs.retired_once o info hobj hne
      have hp := hpend o
      rw [List.count_cons_of_ne ho] at hp
      omega
  · intro o hobj
    dsimp only at hobj
    by_cases ho : o = o₀
    · rw [ho, Function.update_same] at hobj
      cases hobj
    · rw [Function.update_noteq ho] at hobj
      have hold := hs.ghost_pending o hobj
      have hp := hpend o
      rw [List.count_cons_of_ne ho] at hp
      omega

theorem inv_scan {s : SysState} (t : Nat) (ht : t < s.numThreads) (hs : Inv s) :
    Inv (scanStep s t) := by
  have hth : ∀ t', t' ≠ t → (scanStep s t).threads t' = s.threads t' := by
    intro t' hne
    show Function.update s.threads t _ t' = s.threads t'
    rw [Function.update_noteq hne]
  have hslots : ∀ t', ((scanStep s t).threads t').slots = (s.threads t').slots := by
    intro t'
    by_cases htt : t' = t
    · subst htt
      show (Function.update s.threads t' _ t').slots = _
      rw [Function.update_same]
    · rw [hth t' htt]
  have hobjs : ∀ o, (scanStep s t).objs o
      = (s.objs o).map (fun info => { info with deleteCount := info.deleteCount
          + (((s.threads t).retireList.filter fun x => reclaimableInScan s x).count o) }) := by
    intro o
    have h0 : (scanStep s t).objs o
        = (s.objs o).map (fun info => { info with deleteCount := info.deleteCount
            + (((s.threads t).retireList.partition fun x => reclaimableInScan s x).1.count o) }) :=
      rfl
    rw [h0, List.partition_eq_filter_filter]
  have hpend : ∀ o, pendingCount (scanStep s t) o + (s.threads t).retireList.count o
      = pendingCount s o
        + (((s.threads t).retireList.filter fun x => !(reclaimableInScan s x)).count o) := by
    intro o
    have hup := pendingAux_update s.numThreads t s.threads
      { s.threads t with
        retireList := ((s.threads t).retireList.partition fun x => reclaimableInScan s x).2 } ht o
    have h0 : pendingCount (scanStep s t) o + (s.threads t).retireList.count o
        = pendingAux s.numThreads s.threads o
          + ((((s.threads t).retireList.partition fun x => reclaimableInScan s x).2).count o) :=
      hup
    rw [h0, List.partition_eq_filter_filter]
    rfl
  refine ⟨?_, ?_, ?_, ?_, ?_, ?_, ?_, ?_, ?_⟩
  · intro t' htt'
    have h2 : s.numThreads ≤ t' := htt'
    have hne : t' ≠ t := by omega
    rw [hth t' hne]
    exact hs.unregistered_idle t' h2
  · intro t' g hg
    rw [hslots t'] at hg
    exact hs.era_le_clock t' g hg
  · intro o info r hobj hret
    rw [hobjs o] at hobj
    obtain ⟨info₁, hinfo₁, hmap⟩ := Option.map_eq_some'.mp hobj
    rw [← hmap] at hret
    dsimp only at hret
    exact hs.ret_le_clock o info₁ r hinfo₁ hret
  · intro o info hobj
    rw [hobjs o] at hobj
    obtain ⟨info₁, hinfo₁, hmap⟩ := Option.map_eq_some'.mp hobj
    rw [← hmap]
    dsimp only
    exact hs.con_le_clock o info₁ hinfo₁
  · intro o info r hobj hret
    rw [hobjs o] at hobj
    obtain ⟨info₁, hinfo₁, hmap⟩ := Option.map_eq_some'.mp hobj
    rw [← hmap] at hret ⊢
    dsimp only at hret ⊢
    exact hs.con_lt_ret o info₁ r hinfo₁ hret
  · intro t' g info r hg hobj hret
    rw [hslots t'] at hg
    rw [hobjs g.obj] at hobj
    obtain ⟨info₁, hinfo₁, hmap⟩ := Option.map_eq_some'.mp hobj
    rw [← hmap] at hret
    dsimp only at hret
    exact hs.guard_safe t' g info₁ r hg hinfo₁ hret
  · intro o info hobj hnone
    rw [hobjs o] at hobj
    obtain ⟨info₁, hinfo₁, hmap⟩ := Option.map_eq_some'.mp hobj
    rw [← hmap] at hnone
    dsimp only at hnone
    have hold := hs.live_clean o info₁ hinfo₁ hnone
    have hcle := count_le_pendingCount (o := o) ht
    have hcnt0 : (s.threads t).retireList.count o = 0 := by omega
    constructor
    · rw [← hmap]
      dsimp only
      have hrec : (((s.threads t).retireList.filter fun x => reclaimableInScan s x).count o) = 0 := by
        cases hro : reclaimableInScan s o
        · exact count_filter_of_false (by simp [hro])
        · rw [List.count_filter (by simp [hro])]
          exact hcnt0
      omega
    · have hp := hpend o
      cases hro : reclaimableInScan s o
      · rw [List.count_filter (by simp [hro])] at hp
        omega
      · rw [count_filter_of_false (by simp [hro])] at hp
        omega
  · intro o info hobj hne
    rw [hobjs o] at hobj
    obtain ⟨info₁, hinfo₁, hmap⟩ := Option.map_eq_some'.mp hobj
    rw [← hmap] at hne
    dsimp only at hne
    have hold := hs.retired_once o info₁ hinfo₁ hne
    have hcle := count_le_pendingCount (o := o) ht
    have hp := hpend o
    rw [← hmap]
    dsimp only
    cases hro : reclaimableInScan s o
    · rw [count_filter_of_false (by simp [hro])]
      rw [List.count_filter (by simp [hro])] at hp
      omega
    · rw [List.count_filter (by simp [hro])]
      rw [count_filter_of_false (by simp [hro])] at hp
      omega
  · intro o hobj
    rw [hobjs o] at hobj
    have hnone : s.objs o = none := by
      cases hso : s.objs o
      · rfl
      · simp [hso] at hobj
    have hold := hs.ghost_pending o hnone
    have hcle := count_le_pendingCount (o := o) ht
    have hp := hpend o
    cases hro : reclaimableInScan s o
    · rw [List.count_filter (by simp [hro])] at hp
      omega
    · rw [count_filter_of_false (by simp [hro])] at hp
      omega

theorem inv_step {s s' : SysState} (hs : Inv s) (hstep : Step s s') : Inv s' := by
  cases hstep with
  | register => exact inv_register hs
  | newObject o₀ hfresh => exact inv_newObject o₀ hfresh hs
  | acquire t i o₀ info₀ ht hslot hobj hlive => exact inv_acquire t i o₀ info₀ ht hobj hlive hs
  | reset t i ht => exact inv_reset t i ht hs
  | retire t o₀ info₀ ht hobj hlive => exact inv_retire t o₀ info₀ ht hobj hlive hs
  | scan t ht => exact inv_scan t ht hs

theorem reachable_inv {K : Nat} {s : SysState} (h : Reachable K s) : Inv s := by
  induction h with
  | init => exact inv_init K
  | step _ hstep ih => exact inv_step ih hstep

theorem reachable_SW3 : Reachable 1 SW3 :=
  Reachable.step
    (Reachable.step
      (Reachable.step Reachable.init (Step.register SW0))
      (Step.newObject SW1 0 (by decide)))
    (Step.retire SW2 0 0 { constructionEra := 0, retirementEra := none, deleteCount := 0 }
      (by decide) (by decide) (by decide))

theorem reachable_SW5 : Reachable 1 SW5 :=
  Reachable.step
    (Reachable.step reachable_SW3 (Step.newObject SW3 1 (by decide)))
    (Step.acquire SW4 0 0 1 { constructionEra := 1, retirementEra := none, deleteCount := 0 }
      (by decide) (by decide) (by decide) (by decide))

/-- C1: in any reachable state of the interleaving model, whenever a step
invokes the deletion operation of a retired object (its delete count
grows), no guard on any thread still holds a reference to that object that
was acquired before the object's retirement era — every published slot
protecting the object with an era below the retirement era would have
blocked the reclamation, so no thread can be dereferencing the freed
memory. -/
theorem deletion_requires_no_prior_guard (K : Nat) (s s' : SysState) (o : Nat)
    (info info' : ObjInfo) (r : Nat)
    (hreach : Reachable K s) (hstep : Step s s')
    (hobj : s.objs o = some info) (hobj' : s'.objs o = some info')
    (hret : info.retirementEra = some r)
    (hdel : info.deleteCount < info'.deleteCount) :
    ∀ (t i : Nat) (g : GuardSlot),
      (s.threads t).slots[i]? = some (some g) → ¬(g.obj = o ∧ g.era < r) := by
  have hinv := reachable_inv hreach
  intro t i g hgi
  rintro ⟨hgo, hlt⟩
  have hgmem : some g ∈ (s.threads t).slots := List.getElem?_mem hgi
  have htn : t < s.numThreads := by
    by_contra hge
    exact (hinv.unregistered_idle t (by omega)).1 g hgmem
  cases hstep with
  | register =>
    have hobj'' : s.objs o = some info' := hobj'
    rw [hobj] at hobj''
    injection hobj'' with h
    subst h
    exact Nat.lt_irrefl _ hdel
  | newObject o₀ hfresh =>
    have hobj'' : Function.update s.objs o₀
        (some { constructionEra := s.clock, retirementEra := none, deleteCount := 0 }) o
        = some info' := hobj'
    by_cases ho : o = o₀
    · rw [ho, hfresh] at hobj
      cases hobj
    · rw [Function.update_noteq ho, hobj] at hobj''
      injection hobj'' with h
      subst h
      exact Nat.lt_irrefl _ hdel
  | acquire t₀ i₀ o₀ info₀ ht₀ hslot₀ hobjq hliveq =>
    have hobj'' : s.objs o = some info' := hobj'
    rw [hobj] at hobj''
    injection hobj'' with h
    subst h
    exact Nat.lt_irrefl _ hdel
  | reset t₀ i₀ ht₀ =>
    have hobj'' : s.objs o = some info' := hobj'
    rw [hobj] at hobj''
    injection hobj'' with h
    subst h
    exact Nat.lt_irrefl _ hdel
  | retire t₀ o₀ info₀ ht₀ hobjr hliver =>
    have hobj'' : Function.update s.objs o₀
        (some { info₀ with retirementEra := some (s.clock + 1) }) o = some info' := hobj'
    by_cases ho : o = o₀
    · rw [ho, Function.update_same] at hobj''
      injection hobj'' with h
      rw [ho, hobjr] at hobj
      injection hobj with h2
      have h3 : info.deleteCount = info₀.deleteCount := by rw [← h2]
      have h4 : info'.deleteCount = info₀.deleteCount := by rw [← h]
      omega
    · rw [Function.update_noteq ho, hobj] at hobj''
      injection hobj'' with h
      subst h
      exact Nat.lt_irrefl _ hdel
  | scan t₀ ht₀ =>
    have hobj'' := hobj'
    have h0 : (scanStep s t₀).objs o
        = (s.objs o).map (fun i2 => { i2 with deleteCount := i2.deleteCount
            + (((s.threads t₀).retireList.partition fun x => reclaimableInScan s x).1.count o) }) :=
      rfl
    rw [h0, hobj] at hobj''
    injection hobj'' with h
    have hdc : info'.deleteCount = info.deleteCount
        + (((s.threads t₀).retireList.partition fun x => reclaimableInScan s x).1.count o) := by
      rw [← h]
    have hcnt : 0 < (((s.threads t₀).retireList.partition fun x => reclaimableInScan s x).1.count o) := by
      omega
    have hmemf : o ∈ ((s.threads t₀).retireList.partition fun x => reclaimableInScan s x).1 :=
      List.count_pos_iff.mp hcnt
    rw [List.partition_eq_filter_filter] at hmemf
    dsimp only at hmemf
    have hrecl : reclaimableInScan s o = true := (List.mem_filter.mp hmemf).2
    have hcan : canReclaim (min_active_era s) r = true := by
      simpa [reclaimableInScan, hobj, hret] using hrecl
    have hmem : g.era ∈ s.publishedEras := era_mem_publishedEras htn hgmem
    cases hm : min_active_era s with
    | none =>
      have hm' : minNat? s.publishedEras = none := hm
      rw [minNat?_eq_none hm'] at hmem
      cases hmem
    | some m =>
      have hm' : minNat? s.publishedEras = some m := hm
      have hmle : m ≤ g.era := minNat?_le_of_mem hmem hm'
      rw [hm] at hcan
      have hrm : r ≤ m := by simpa [canReclaim] using hcan
      omega

/-- C1 witness: in the concrete run, the scan by thread 0 deletes object 0
(retired at era 1) while thread 0's guard protects object 1 with published
era 1; that guard is not a pre-retirement reference to object 0, as the
theorem demands. -/
theorem deletion_requires_no_prior_guard_witness :
    (SW5.threads 0).slots[0]? = some (some { era := 1, obj := 1 })
    ∧ ¬(({ era := 1, obj := 1 } : GuardSlot).obj = 0
        ∧ ({ era := 1, obj := 1 } : GuardSlot).era < 1) :=
  ⟨by decide,
   deletion_requires_no_prior_guard 1 SW5 (scanStep SW5 0) 0
     { constructionEra := 0, retirementEra := some 1, deleteCount := 0 }
     { constructionEra := 0, retirementEra := some 1, deleteCount := 1 } 1
     reachable_SW5 (Step.scan SW5 0 (by decide)) (by decide) (by decide) (by decide) (by decide)
     0 0 { era := 1, obj := 1 } (by decide)⟩

/-- C2: in any reachable state, the retirement scan classifies a retired
object as reclaimable iff min_active_era is at least its retirement era
(the minimum over all published slots of all registered thread control
blocks, unpublished slots imposing no constraint), equivalently iff the
interval from its construction era up to (excluding) its retirement era
lies entirely below every currently published era. -/
theorem scan_classification (K : Nat) (s : SysState) (o r : Nat) (info : ObjInfo)
    (hreach : Reachable K s)
    (hobj : s.objs o = some info) (hret : info.retirementEra = some r) :
    (reclaimableInScan s o = true ↔ ∀ m, min_active_era s = some m → r ≤ m)
    ∧ (reclaimableInScan s o = true ↔
        ∀ e ∈ s.publishedEras, ∀ x, info.constructionEra ≤ x → x < r → x < e) := by
  have hinv := reachable_inv hreach
  have hcr : info.constructionEra < r := hinv.con_lt_ret o info r hobj hret
  have hre : reclaimableInScan s o = canReclaim (min_active_era s) r := by
    simp [reclaimableInScan, hobj, hret]
  rw [hre]
  cases hm : min_active_era s with
  | none =>
    have hm' : minNat? s.publishedEras = none := hm
    have hempty : s.publishedEras = [] := minNat?_eq_none hm'
    constructor
    · simp [canReclaim]
    · simp [canReclaim, hempty]
  | some m =>
    have hm' : minNat? s.publishedEras = some m := hm
    constructor
    · simp [canReclaim]
    · constructor
      · intro hc e he x hcx hxr
        have hrm : r ≤ m := by simpa [canReclaim] using hc
        have hme : m ≤ e := minNat?_le_of_mem he hm'
        omega
      · intro h
        have hmm : m ∈ s.publishedEras := minNat?_mem hm'
        have hx := h m hmm (r - 1) (by omega) (by omega)
        simp [canReclaim]
        omega

/-- C2 witness: in the concrete run after the guard on object 1 published
era 1, the scan classification of the retired object 0 (retirement era 1)
satisfies both characterisations. -/
theorem scan_classification_witness :
    (reclaimableInScan SW5 0 = true ↔ ∀ m, min_active_era SW5 = some m → 1 ≤ m)
    ∧ (reclaimableInScan SW5 0 = true ↔
        ∀ e ∈ SW5.publishedEras, ∀ x,
          ({ constructionEra := 0, retirementEra := some 1, deleteCount := 0 } : ObjInfo).constructionEra ≤ x →
          x < 1 → x < e) :=
  scan_classification 1 SW5 0 1
    { constructionEra := 0, retirementEra := some 1, deleteCount := 0 }
    reachable_SW5 (by decide) (by decide)

/-- C3: in any reachable state, an object's deletion operation has run at
most once; once the object is retired, the number of deletions plus its
occurrences on the retire lists is exactly one (so the single pending
deletion is either already performed or still queued, and the object can
never be deleted again); and the scan of a thread holding the object, run
when no era is published, performs that one deletion, making the count
exactly one. -/
theorem delete_self_exactly_once (K : Nat) (s : SysState) (o : Nat) (info : ObjInfo)
    (hreach : Reachable K s) (hobj : s.objs o = some info) :
    info.deleteCount ≤ 1
    ∧ (info.retirementEra ≠ none → info.deleteCount + pendingCount s o = 1)
    ∧ (∀ t, t < s.numThreads → o ∈ (s.threads t).retireList → s.publishedEras = [] →
        ∀ info', (scanStep s t).objs o = some info' → info'.deleteCount = 1) := by
  have hinv := reachable_inv hreach
  refine ⟨?_, fun hne => hinv.retired_once o info hobj hne, ?_⟩
  · cases hr : info.retirementEra with
    | none =>
      have h := (hinv.live_clean o info hobj hr).1
      omega
    | some r =>
      have h := hinv.retired_once o info hobj (by simp [hr])
      omega
  · intro t ht hmem hpub info' hinfo'
    have hretne : info.retirementEra ≠ none := by
      intro hnone
      have h0 := (hinv.live_clean o info hobj hnone).2
      have h1 := pendingCount_pos ht hmem
      omega
    have hro : reclaimableInScan s o = true := by
      obtain ⟨r, hr⟩ := Option.ne_none_iff_exists'.mp hretne
      have hm : min_active_era s = none := by
        show minNat? s.publishedEras = none
        rw [hpub]
        rfl
      simp [reclaimableInScan, hobj, hr, hm, canReclaim]
    have h0 : (scanStep s t).objs o
        = (s.objs o).map (fun i2 => { i2 with deleteCount := i2.deleteCount
            + (((s.threads t).retireList.partition fun x => reclaimableInScan s x).1.count o) }) :=
      rfl
    rw [h0, hobj] at hinfo'
    injection hinfo' with h1
    have hdc : info'.deleteCount = info.deleteCount
        + (((s.threads t).retireList.partition fun x => reclaimableInScan s x).1.count o) := by
      rw [← h1]
    rw [List.partition_eq_filter_filter] at hdc
    dsimp only at hdc
    have hcnt : ((s.threads t).retireList.filter fun x => reclaimableInScan s x).count o
        = (s.threads t).retireList.count o := List.count_filter (by simp [hro])
    rw [hcnt] at hdc
    have hone := hinv.retired_once o info hobj hretne
    have hle := count_le_pendingCount (o := o) ht
    have hpos : 0 < (s.threads t).retireList.count o := List.count_pos_iff.mpr hmem
    omega

/-- C3 witness: in the concrete run with object 0 retired and pending on
thread 0's retire list and nothing published, the three parts of the
exactly-once property hold. -/
theorem delete_self_exactly_once_witness :
    ({ constructionEra := 0, retirementEra := some 1, deleteCount := 0 } : ObjInfo).deleteCount ≤ 1
    ∧ (({ constructionEra := 0, retirementEra := some 1, deleteCount := 0 } : ObjInfo).retirementEra ≠ none →
        ({ constructionEra := 0, retirementEra := some 1, deleteCount := 0 } : ObjInfo).deleteCount
          + pendingCount SW3 0 = 1)
    ∧ (∀ t, t < SW3.numThreads → 0 ∈ (SW3.threads t).retireList → SW3.publishedEras = [] →
        ∀ info', (scanStep SW3 t).objs 0 = some info' → info'.deleteCount = 1) :=
  delete_self_exactly_once 1 SW3 0
    { constructionEra := 0, retirementEra := some 1, deleteCount := 0 }
    reachable_SW3 (by decide)

end HazardEras
